import Mathlib

/-!
Shallow embedding of `src/bioloid/rp2.c` (function `write_packet`).

The C function drives a memory-mapped UART register block:

  void write_packet(volatile uint32_t* base, uint8_t* buf, size_t len) {
      uint32_t cr = base[UARTCR / 4];
      cr |= UARTCR_RXE;  cr &= ~UARTCR_TXE;
      base[UARTCR / 4] = cr;
      asm("nop");
      while (1) {
          uint32_t fr = base[UARTFR / 4];
          if ((fr & UARTFR_TXFF) == 0) break;
      }
      asm("nop");
      cr = base[UARTCR / 4];
      cr |= UARTCR_TXE;  cr &= ~UARTCR_RXE;
      base[UARTCR / 4] = cr;
  }

Registers are 32-bit, modelled as `Nat` values below `2 ^ 32`.  The
hardware is modelled by oracles giving the value returned by each
volatile read: `V` is the value of the first control-register read,
`W` the value of the second (post-poll) control-register read, and
`flags i` the value of the `i`-th flag-register read.  The infinite
`while (1)` poll loop is modelled with explicit fuel returning
`Option`: `none` means the fuel was exhausted before the loop exited,
and a run that returns `none` for every fuel is a non-terminating run.
An execution is recorded as the list of register accesses (events)
performed, each event carrying the byte offset of the register and the
32-bit value read or written.
-/

/-- Base address of the UART0 register block (`#define UART0_BASE`). -/
def UART0_BASE : Nat := 0x40034000

/-- Byte offset of the control register (`#define UARTCR 0x30`). -/
def UARTCR : Nat := 0x30

/-- Receive-enable bit of the control register (`1 << 9`). -/
def UARTCR_RXE : Nat := 1 <<< 9

/-- Transmit-enable bit of the control register (`1 << 8`). -/
def UARTCR_TXE : Nat := 1 <<< 8

/-- Byte offset of the flag register (`#define UARTFR 0x18`). -/
def UARTFR : Nat := 0x18

/-- Transmit-FIFO-empty flag bit (`1 << 7`), unused by the routine. -/
def UARTFR_TXFE : Nat := 1 <<< 7

/-- Transmit-FIFO-full flag bit (`1 << 5`). -/
def UARTFR_TXFF : Nat := 1 <<< 5

/-- UART-busy flag bit (`1 << 3`), unused by the routine. -/
def UARTFR_BUSY : Nat := 1 <<< 3

/-- C bitwise complement restricted to 32 bits, as applied to a
`uint32_t` operand: `~x` on a 32-bit value. -/
def compl32 (x : Nat) : Nat := (2 ^ 32 - 1) ^^^ (x % 2 ^ 32)

/-- A single volatile access to the register block: a read or a write
of a 32-bit word, tagged with the byte offset of the register. -/
inductive Ev where
  | read (off : Nat) (v : Nat)
  | write (off : Nat) (v : Nat)
deriving DecidableEq, Repr

/-- First read-modify-write of the control register (step 1 of the
routine): `cr |= UARTCR_RXE; cr &= ~UARTCR_TXE`. -/
def crToRx (cr : Nat) : Nat := (cr ||| UARTCR_RXE) &&& compl32 UARTCR_TXE

/-- Final read-modify-write of the control register:
`cr |= UARTCR_TXE; cr &= ~UARTCR_RXE`. -/
def crToTx (cr : Nat) : Nat := (cr ||| UARTCR_TXE) &&& compl32 UARTCR_RXE

/-- The `while (1)` poll loop of `write_packet`, reading the flag
register until the transmit-FIFO-full bit is clear.  `flags i` is the
value returned by the `i`-th flag-register read; `i` is the index of
the next read; `fuel` bounds the number of iterations still allowed.
Returns the list of flag-register read events performed, or `none` if
the fuel ran out with the loop still spinning. -/
def pollLoop (flags : Nat → Nat) : Nat → Nat → Option (List Ev)
  | _, 0 => none
  | i, fuel + 1 =>
    let fr := flags i
    if fr &&& UARTFR_TXFF = 0 then
      some [Ev.read UARTFR fr]
    else
      match pollLoop flags (i + 1) fuel with
      | none => none
      | some rest => some (Ev.read UARTFR fr :: rest)

/-- The full `write_packet` routine as the trace of register accesses
it performs.  `V` is the value returned by the first control-register
read, `W` the value returned by the second (post-poll) control-register
read, `flags` the flag-register read oracle, and `fuel` the iteration
bound for the poll loop.  `buf` and `len` are the payload parameters of
the C function; the body never uses them.  Returns `none` when the poll
loop did not exit within `fuel` iterations. -/
def write_packet (V W : Nat) (flags : Nat → Nat) (fuel : Nat)
    (buf : List Nat) (len : Nat) : Option (List Ev) :=
  match pollLoop flags 0 fuel with
  | none => none
  | some reads =>
    some (Ev.read UARTCR V :: Ev.write UARTCR (crToRx V) ::
      (reads ++ [Ev.read UARTCR W, Ev.write UARTCR (crToTx W)]))

/-- Is the event a read of the flag register? -/
def isFlagRead : Ev → Bool
  | Ev.read off _ => off == UARTFR
  | Ev.write _ _ => false

/-- Is the event a write of any register? -/
def isWrite : Ev → Bool
  | Ev.read _ _ => false
  | Ev.write _ _ => true

/-- The byte offset of the register an event accesses. -/
def evOff : Ev → Nat
  | Ev.read off _ => off
  | Ev.write off _ => off

/-- Is the event a control-register write whose value has the
receive-enable bit (bit 9) set — i.e. the receive-mode write? -/
def isRxModeWrite : Ev → Bool
  | Ev.write off v => off == UARTCR && v.testBit 9
  | Ev.read _ _ => false

/-- Is the event a control-register write whose value has the
transmit-enable bit (bit 8) set — i.e. the transmit-mode write? -/
def isTxModeWrite : Ev → Bool
  | Ev.write off v => off == UARTCR && v.testBit 8
  | Ev.read _ _ => false

/-! Bit-level facts about the two read-modify-writes -/

lemma compl32_TXE : compl32 UARTCR_TXE = 0xFFFFFFFF ^^^ 0x100 := rfl

lemma compl32_RXE : compl32 UARTCR_RXE = 0xFFFFFFFF ^^^ 0x200 := rfl

lemma testBit_crToRx (V i : Nat) :
    (crToRx V).testBit i =
      ((V.testBit i || decide (i = 9)) && !decide (i = 8) && decide (i < 32)) := by
  have h9 : UARTCR_RXE = 2 ^ 9 := rfl
  have h8 : (0x100 : Nat) = 2 ^ 8 := rfl
  have h32 : (0xFFFFFFFF : Nat) = 2 ^ 32 - 1 := rfl
  rw [crToRx, compl32_TXE, h9, h8, h32, Nat.testBit_and, Nat.testBit_or,
    Nat.testBit_xor, Nat.testBit_two_pow_sub_one,
    Nat.testBit_two_pow, Nat.testBit_two_pow]
  by_cases e8 : i = 8 <;> by_cases e9 : i = 9 <;> by_cases l32 : i < 32 <;>
    simp [e8, e9, l32, eq_comm]

lemma testBit_crToTx (W i : Nat) :
    (crToTx W).testBit i =
      ((W.testBit i || decide (i = 8)) && !decide (i = 9) && decide (i < 32)) := by
  have h8 : UARTCR_TXE = 2 ^ 8 := rfl
  have h9 : (0x200 : Nat) = 2 ^ 9 := rfl
  have h32 : (0xFFFFFFFF : Nat) = 2 ^ 32 - 1 := rfl
  rw [crToTx, compl32_RXE, h8, h9, h32, Nat.testBit_and, Nat.testBit_or,
    Nat.testBit_xor, Nat.testBit_two_pow_sub_one,
    Nat.testBit_two_pow, Nat.testBit_two_pow]
  by_cases e8 : i = 8 <;> by_cases e9 : i = 9 <;> by_cases l32 : i < 32 <;>
    simp [e8, e9, l32, eq_comm]

lemma testBit_of_32_le {x i : Nat} (hx : x < 2 ^ 32) (hi : 32 ≤ i) :
    x.testBit i = false :=
  Nat.testBit_lt_two_pow
    (lt_of_lt_of_le hx (Nat.pow_le_pow_right (by norm_num) hi))

/-! Structure of a successful poll loop -/

/-- Peeling the first read off a block of consecutive flag reads. -/
lemma readsFrom_succ (flags : Nat → Nat) (i n : Nat) :
    (List.range (n + 1)).map (fun j => Ev.read UARTFR (flags (i + j))) =
      Ev.read UARTFR (flags i) ::
        (List.range n).map (fun j => Ev.read UARTFR (flags (i + 1 + j))) := by
  simp only [List.range_succ_eq_map, List.map_cons, List.map_map, Nat.add_zero]
  congr 1
  apply List.map_congr_left
  intro j hj
  simp only [Function.comp_apply, Nat.succ_eq_add_one]
  have e : i + (j + 1) = i + 1 + j := by omega
  rw [e]

/-- A successful poll loop run is fully characterized: there is an `n`
with the first `n` flag reads reporting FIFO-full, read `n` reporting
not-full, and the event list is exactly those `n + 1` flag reads in
order. -/
lemma pollLoop_eq_some {flags : Nat → Nat} :
    ∀ (fuel i : Nat) (reads : List Ev),
      pollLoop flags i fuel = some reads →
      ∃ n, n + 1 ≤ fuel ∧
        (∀ j, j < n → flags (i + j) &&& UARTFR_TXFF ≠ 0) ∧
        flags (i + n) &&& UARTFR_TXFF = 0 ∧
        reads = (List.range (n + 1)).map (fun j => Ev.read UARTFR (flags (i + j))) := by
  intro fuel
  induction fuel with
  | zero => intro i reads h; simp [pollLoop] at h
  | succ fuel ih =>
    intro i reads h
    rw [pollLoop] at h
    by_cases hc : flags i &&& UARTFR_TXFF = 0
    · rw [if_pos hc] at h
      simp at h
      refine ⟨0, Nat.succ_le_succ (Nat.zero_le _), by omega, by simpa using hc, ?_⟩
      rw [← h, List.range_succ]
      simp
    · rw [if_neg hc] at h
      cases hr : pollLoop flags (i + 1) fuel with
      | none => rw [hr] at h; exact absurd h (by simp)
      | some rest =>
        rw [hr] at h
        simp at h
        obtain ⟨n, hfuel, hfull, hclear, hrest⟩ := ih (i + 1) rest hr
        refine ⟨n + 1, by omega, ?_, ?_, ?_⟩
        · intro j hj
          cases j with
          | zero => simpa using hc
          | succ j =>
            have := hfull j (by omega)
            have e : i + (j + 1) = i + 1 + j := by omega
            rw [e]; exact this
        · have e : i + (n + 1) = i + 1 + n := by omega
          rw [e]; exact hclear
        · rw [← h, hrest]
          conv_rhs => rw [readsFrom_succ]

/-- If the poll loop never exits within the given fuel, it returns
`none`; in particular, `pollLoop` on zero fuel is `none`. -/
lemma pollLoop_none_of_always_full {flags : Nat → Nat}
    (hfull : ∀ i, flags i &&& UARTFR_TXFF ≠ 0) :
    ∀ (fuel i : Nat), pollLoop flags i fuel = none := by
  intro fuel
  induction fuel with
  | zero => intro i; rfl
  | succ fuel ih =>
    intro i
    rw [pollLoop, if_neg (hfull i), ih (i + 1)]

/-- A poll loop that sees FIFO-full exactly on reads `0, …, n - 1` and
not-full on read `n` succeeds with exactly `n + 1` reads, given fuel of
at least `n + 1`. -/
lemma pollLoop_exact {flags : Nat → Nat} :
    ∀ (n i fuel : Nat),
      (∀ j, j < n → flags (i + j) &&& UARTFR_TXFF ≠ 0) →
      flags (i + n) &&& UARTFR_TXFF = 0 →
      n + 1 ≤ fuel →
      pollLoop flags i fuel =
        some ((List.range (n + 1)).map (fun j => Ev.read UARTFR (flags (i + j)))) := by
  intro n
  induction n with
  | zero =>
    intro i fuel _ hclear hfuel
    cases fuel with
    | zero => omega
    | succ fuel =>
      rw [pollLoop, if_pos (by simpa using hclear), List.range_succ]
      simp
  | succ n ih =>
    intro i fuel hfull hclear hfuel
    cases fuel with
    | zero => omega
    | succ fuel =>
      rw [pollLoop, if_neg (by simpa using hfull 0 (by omega))]
      rw [ih (i + 1) fuel
        (fun j hj => by
          have := hfull (j + 1) (by omega)
          have e : i + 1 + j = i + (j + 1) := by omega
          rw [e]; exact this)
        (by rw [show i + 1 + n = i + (n + 1) from by omega]; exact hclear)
        (by omega)]
      conv_rhs => rw [readsFrom_succ]

/-! Structure of a completed `write_packet` run -/

/-- A completed run of `write_packet` has a fully determined trace:
an initial control-register read and receive-mode write, then `n + 1`
flag-register reads (the first `n` seeing FIFO-full, the last seeing
not-full), then the second control-register read and the transmit-mode
write. -/
lemma write_packet_some {V W : Nat} {flags : Nat → Nat} {fuel : Nat}
    {buf : List Nat} {len : Nat} {tr : List Ev}
    (h : write_packet V W flags fuel buf len = some tr) :
    ∃ n, n + 1 ≤ fuel ∧
      (∀ j, j < n → flags j &&& UARTFR_TXFF ≠ 0) ∧
      flags n &&& UARTFR_TXFF = 0 ∧
      tr = Ev.read UARTCR V :: Ev.write UARTCR (crToRx V) ::
        ((List.range (n + 1)).map (fun j => Ev.read UARTFR (flags j)) ++
          [Ev.read UARTCR W, Ev.write UARTCR (crToTx W)]) := by
  rw [write_packet] at h
  cases hp : pollLoop flags 0 fuel with
  | none => rw [hp] at h; exact absurd h (by simp)
  | some reads =>
    rw [hp] at h
    simp only [Option.some.injEq] at h
    obtain ⟨n, hfuel, hfull, hclear, hreads⟩ := pollLoop_eq_some fuel 0 reads hp
    refine ⟨n, hfuel, by simpa using hfull, by simpa using hclear, ?_⟩
    rw [← h, hreads]
    simp

/-- Every event of a completed trace is one of the five access forms. -/
lemma write_packet_mem {V W : Nat} {flags : Nat → Nat} {fuel : Nat}
    {buf : List Nat} {len : Nat} {tr : List Ev}
    (h : write_packet V W flags fuel buf len = some tr) :
    ∀ e ∈ tr, e = Ev.read UARTCR V ∨ e = Ev.write UARTCR (crToRx V) ∨
      (∃ j, e = Ev.read UARTFR (flags j)) ∨ e = Ev.read UARTCR W ∨
      e = Ev.write UARTCR (crToTx W) := by
  obtain ⟨n, _, _, _, htr⟩ := write_packet_some h
  intro e he
  rw [htr] at he
  simp only [List.mem_cons, List.mem_append, List.mem_map, List.mem_range] at he
  rcases he with h1 | h1 | ⟨⟨j, _, h1⟩ | h1⟩
  · exact Or.inl h1
  · exact Or.inr (Or.inl h1)
  · exact Or.inr (Or.inr (Or.inl ⟨j, h1.symm⟩))
  · simp at h1
    rcases h1 with h1 | h1
    · exact Or.inr (Or.inr (Or.inr (Or.inl h1)))
    · exact Or.inr (Or.inr (Or.inr (Or.inr h1)))

/-! Event predicate evaluations -/

lemma isFlagRead_read_CR (v : Nat) : isFlagRead (Ev.read UARTCR v) = false := rfl

lemma isFlagRead_read_FR (v : Nat) : isFlagRead (Ev.read UARTFR v) = true := rfl

lemma isFlagRead_write (off v : Nat) : isFlagRead (Ev.write off v) = false := rfl

lemma isWrite_read (off v : Nat) : isWrite (Ev.read off v) = false := rfl

lemma isWrite_write (off v : Nat) : isWrite (Ev.write off v) = true := rfl

/-- The C poll exit condition `(fr & UARTFR_TXFF) == 0` says exactly
that bit 5 of the flag value is clear. -/
lemma and_txff_eq_zero_iff (x : Nat) : x &&& UARTFR_TXFF = 0 ↔ x.testBit 5 = false := by
  have h5 : UARTFR_TXFF = 2 ^ 5 := rfl
  rw [h5]
  constructor
  · intro h
    by_contra hb
    rw [Bool.not_eq_false] at hb
    have h2 : (x &&& 2 ^ 5).testBit 5 = true := by
      rw [Nat.testBit_and, hb, Nat.testBit_two_pow_self]
      rfl
    rw [h] at h2
    simp [Nat.zero_testBit] at h2
  · intro h
    apply Nat.eq_of_testBit_eq
    intro j
    simp only [Nat.testBit_and, Nat.testBit_two_pow, Nat.zero_testBit]
    by_cases e : 5 = j
    · subst e; simp [h]
    · simp [e]

/-- The last event of a completed trace is the transmit-mode write. -/
lemma write_packet_getLast {V W : Nat} {flags : Nat → Nat} {fuel : Nat}
    {buf : List Nat} {len : Nat} {tr : List Ev}
    (h : write_packet V W flags fuel buf len = some tr) :
    tr.getLast? = some (Ev.write UARTCR (crToTx W)) := by
  obtain ⟨n, _, _, _, htr⟩ := write_packet_some h
  have h2 : tr = (Ev.read UARTCR V :: Ev.write UARTCR (crToRx V) ::
      ((List.range (n + 1)).map (fun j => Ev.read UARTFR (flags j)) ++
        [Ev.read UARTCR W])) ++ [Ev.write UARTCR (crToTx W)] := by
    rw [htr]; simp
  rw [h2, List.getLast?_concat]

/-- The flag-register reads of a completed trace are exactly the poll
reads, ending in one whose value passes the exit test. -/
lemma write_packet_filter_flagRead {V W : Nat} {flags : Nat → Nat} {fuel : Nat}
    {buf : List Nat} {len : Nat} {tr : List Ev}
    (h : write_packet V W flags fuel buf len = some tr) :
    ∃ n, flags n &&& UARTFR_TXFF = 0 ∧
      tr.filter isFlagRead =
        (List.range (n + 1)).map (fun j => Ev.read UARTFR (flags j)) := by
  obtain ⟨n, _, _, hclear, htr⟩ := write_packet_some h
  refine ⟨n, hclear, ?_⟩
  rw [htr]
  have hq : List.filter (isFlagRead ∘ fun j => Ev.read UARTFR (flags j))
      (List.range (n + 1)) = List.range (n + 1) := by
    rw [List.filter_eq_self]
    intro a _
    rfl
  simp [List.filter_cons, List.filter_append, List.filter_map, hq,
    isFlagRead_read_CR, isFlagRead_read_FR, isFlagRead_write]

/-! The claims -/

/-- C1: for every initial 32-bit control-register value `V`, the value
written back by step 1 of `write_packet` (the first read-modify-write
of the control register, `crToRx V`) has bit 9 (receive-enable) set,
bit 8 (transmit-enable) clear, and every other bit equal to the
corresponding bit of `V`. -/
theorem C1_step1_bit_discipline (V : Nat) (hV : V < 2 ^ 32) :
    (crToRx V).testBit 9 = true ∧ (crToRx V).testBit 8 = false ∧
      ∀ i, i ≠ 8 → i ≠ 9 → (crToRx V).testBit i = V.testBit i := by
  refine ⟨by rw [testBit_crToRx]; simp, by rw [testBit_crToRx]; simp, ?_⟩
  intro i h8 h9
  rw [testBit_crToRx]
  rcases Nat.lt_or_ge i 32 with hlt | hge
  · simp [h8, h9, hlt]
  · rw [testBit_of_32_le hV hge]
    simp [Nat.not_lt.mpr hge]

theorem C1_step1_bit_discipline_witness :
    (0x12345678 : Nat) < 2 ^ 32 ∧ (crToRx 0x12345678).testBit 9 = true :=
  ⟨by norm_num, (C1_step1_bit_discipline 0x12345678 (by norm_num)).1⟩

/-- C2: whenever `write_packet` returns, the control register ends with
bit 8 (transmit-enable) set and bit 9 (receive-enable) clear — the last
event of the trace is the write of `crToTx W` — and the flag value
observed by the last poll-loop read has the transmit-FIFO-full bit
(bit 5) clear. -/
theorem C2_return_state {V W : Nat} {flags : Nat → Nat} {fuel : Nat}
    {buf : List Nat} {len : Nat} {tr : List Ev}
    (h : write_packet V W flags fuel buf len = some tr) :
    tr.getLast? = some (Ev.write UARTCR (crToTx W)) ∧
      (crToTx W).testBit 8 = true ∧ (crToTx W).testBit 9 = false ∧
      ∃ fr, (tr.filter isFlagRead).getLast? = some (Ev.read UARTFR fr) ∧
        fr &&& UARTFR_TXFF = 0 ∧ fr.testBit 5 = false := by
  refine ⟨write_packet_getLast h, by rw [testBit_crToTx]; simp,
    by rw [testBit_crToTx]; simp, ?_⟩
  obtain ⟨n, hclear, hfilter⟩ := write_packet_filter_flagRead h
  refine ⟨flags n, ?_, hclear, (and_txff_eq_zero_iff (flags n)).mp hclear⟩
  rw [hfilter, List.range_succ, List.map_append]
  simp

theorem C2_return_state_witness :
    write_packet 0 0 (fun _ => 0) 1 [] 0 =
      some [Ev.read UARTCR 0, Ev.write UARTCR (crToRx 0), Ev.read UARTFR 0,
        Ev.read UARTCR 0, Ev.write UARTCR (crToTx 0)] ∧
    ([Ev.read UARTCR 0, Ev.write UARTCR (crToRx 0), Ev.read UARTFR 0,
        Ev.read UARTCR 0, Ev.write UARTCR (crToTx 0)].getLast? =
      some (Ev.write UARTCR (crToTx 0))) ∧
    (crToTx 0).testBit 8 = true :=
  ⟨rfl,
    (@C2_return_state 0 0 (fun _ => 0) 1 [] 0
      [Ev.read UARTCR 0, Ev.write UARTCR (crToRx 0), Ev.read UARTFR 0,
        Ev.read UARTCR 0, Ev.write UARTCR (crToTx 0)] rfl).1,
    (@C2_return_state 0 0 (fun _ => 0) 1 [] 0
      [Ev.read UARTCR 0, Ev.write UARTCR (crToRx 0), Ev.read UARTFR 0,
        Ev.read UARTCR 0, Ev.write UARTCR (crToTx 0)] rfl).2.1⟩

/-- C7: if every flag-register read reports the transmit-FIFO-full bit
set, the poll loop never exits: for every fuel bound the run fails to
complete, so `write_packet` never returns and the final control-register
write never occurs. -/
theorem C7_hang (V W : Nat) (flags : Nat → Nat) (buf : List Nat) (len : Nat)
    (hfull : ∀ i, flags i &&& UARTFR_TXFF ≠ 0) (fuel : Nat) :
    write_packet V W flags fuel buf len = none := by
  rw [write_packet, pollLoop_none_of_always_full hfull]

theorem C7_hang_witness :
    write_packet 0 0 (fun _ => UARTFR_TXFF) 7 [] 0 = none :=
  C7_hang 0 0 (fun _ => UARTFR_TXFF) [] 0
    (by intro i; show UARTFR_TXFF &&& UARTFR_TXFF ≠ 0; decide) 7

/-- C8: the payload parameters `buf` and `len` do not influence
observable behavior: with the same register-read oracles, the trace of
register accesses is identical for arbitrary differing `buf` and `len`.
Indeed the body of `write_packet` never uses them. -/
theorem C8_payload_irrelevant (V W : Nat) (flags : Nat → Nat) (fuel : Nat)
    (buf buf' : List Nat) (len len' : Nat) :
    write_packet V W flags fuel buf len = write_packet V W flags fuel buf' len' := rfl

/-- C10: the transmit-mode value written in the final step is derived
from the fresh post-poll control-register read `W` (not from the value
written in step 1, which plays no part): the last event of any completed
trace writes `crToTx W = (W ||| UARTCR_TXE) &&& compl32 UARTCR_RXE`, and
that value preserves every bit of `W` other than bits 8 and 9. -/
theorem C10_fresh_read {V : Nat} (W : Nat) (hW : W < 2 ^ 32)
    {flags : Nat → Nat} {fuel : Nat} {buf : List Nat} {len : Nat} {tr : List Ev}
    (h : write_packet V W flags fuel buf len = some tr) :
    tr.getLast? = some (Ev.write UARTCR ((W ||| UARTCR_TXE) &&& compl32 UARTCR_RXE)) ∧
      (crToTx W).testBit 8 = true ∧ (crToTx W).testBit 9 = false ∧
      ∀ i, i ≠ 8 → i ≠ 9 → (crToTx W).testBit i = W.testBit i := by
  refine ⟨write_packet_getLast h, by rw [testBit_crToTx]; simp,
    by rw [testBit_crToTx]; simp, ?_⟩
  intro i h8 h9
  rw [testBit_crToTx]
  rcases Nat.lt_or_ge i 32 with hlt | hge
  · simp [h8, h9, hlt]
  · rw [testBit_of_32_le hW hge]
    simp [Nat.not_lt.mpr hge]

theorem C10_fresh_read_witness :
    (5 : Nat) < 2 ^ 32 ∧
    write_packet 0 5 (fun _ => 0) 1 [] 0 =
      some [Ev.read UARTCR 0, Ev.write UARTCR (crToRx 0), Ev.read UARTFR 0,
        Ev.read UARTCR 5, Ev.write UARTCR (crToTx 5)] ∧
    ([Ev.read UARTCR 0, Ev.write UARTCR (crToRx 0), Ev.read UARTFR 0,
        Ev.read UARTCR 5, Ev.write UARTCR (crToTx 5)].getLast? =
      some (Ev.write UARTCR ((5 ||| UARTCR_TXE) &&& compl32 UARTCR_RXE))) :=
  ⟨by norm_num, rfl,
    (@C10_fresh_read 0 5 (by norm_num) (fun _ => 0) 1 [] 0
      [Ev.read UARTCR 0, Ev.write UARTCR (crToRx 0), Ev.read UARTFR 0,
        Ev.read UARTCR 5, Ev.write UARTCR (crToTx 5)] rfl).1⟩

/-! Mask algebra for the non-interference property -/

lemma testBit_compl300 (j : Nat) :
    (compl32 0x300).testBit j =
      (decide (j < 32) && !decide (j = 8) && !decide (j = 9)) := by
  have h : compl32 0x300 = (2 ^ 32 - 1) ^^^ (2 ^ 8 ||| 2 ^ 9) := rfl
  rw [h, Nat.testBit_xor, Nat.testBit_two_pow_sub_one, Nat.testBit_or,
    Nat.testBit_two_pow, Nat.testBit_two_pow]
  by_cases e8 : j = 8 <;> by_cases e9 : j = 9 <;> by_cases l32 : j < 32 <;>
    simp [e8, e9, l32, eq_comm]

/-- Two values agreeing on every bit other than 8 and 9 (below 32)
agree after masking with `~0x300`. -/
lemma mask300_eq {a b : Nat}
    (h : ∀ j, j ≠ 8 → j ≠ 9 → j < 32 → a.testBit j = b.testBit j) :
    a &&& compl32 0x300 = b &&& compl32 0x300 := by
  apply Nat.eq_of_testBit_eq
  intro j
  rw [Nat.testBit_and, Nat.testBit_and, testBit_compl300]
  by_cases e8 : j = 8
  · simp [e8]
  by_cases e9 : j = 9
  · simp [e9]
  by_cases l32 : j < 32
  · rw [h j e8 e9 l32]
  · simp [l32]

/-- The flag-read filter of the canonical completed trace. -/
lemma filter_flagRead_trace (V W : Nat) (flags : Nat → Nat) (n : Nat) :
    (Ev.read UARTCR V :: Ev.write UARTCR (crToRx V) ::
      ((List.range (n + 1)).map (fun j => Ev.read UARTFR (flags j)) ++
        [Ev.read UARTCR W, Ev.write UARTCR (crToTx W)])).filter isFlagRead =
      (List.range (n + 1)).map (fun j => Ev.read UARTFR (flags j)) := by
  have hq : List.filter (isFlagRead ∘ fun j => Ev.read UARTFR (flags j))
      (List.range (n + 1)) = List.range (n + 1) := by
    rw [List.filter_eq_self]
    intro a _
    rfl
  simp [List.filter_cons, List.filter_append, List.filter_map, hq,
    isFlagRead_read_CR, isFlagRead_read_FR, isFlagRead_write]

/-- C3: across a full completed call (the hardware holding the control
register at the step-1 value `crToRx V` for the second read), no write
alters the bits outside 8 and 9: every written value, and in particular
the final control-register value, satisfies
`result &&& ~0x300 = V &&& ~0x300`. -/
theorem C3_noninterference {V : Nat} {flags : Nat → Nat} {fuel : Nat}
    {buf : List Nat} {len : Nat} {tr : List Ev}
    (h : write_packet V (crToRx V) flags fuel buf len = some tr) :
    (∀ off v, Ev.write off v ∈ tr → v &&& compl32 0x300 = V &&& compl32 0x300) ∧
      tr.getLast? = some (Ev.write UARTCR (crToTx (crToRx V))) ∧
      crToTx (crToRx V) &&& compl32 0x300 = V &&& compl32 0x300 := by
  have hRx : ∀ j, j ≠ 8 → j ≠ 9 → j < 32 → (crToRx V).testBit j = V.testBit j := by
    intro j h8 h9 l32
    rw [testBit_crToRx]
    simp [h8, h9, l32]
  have hTx : crToTx (crToRx V) &&& compl32 0x300 = V &&& compl32 0x300 := by
    apply mask300_eq
    intro j h8 h9 l32
    rw [testBit_crToTx, hRx j h8 h9 l32]
    simp [h8, h9, l32]
  refine ⟨?_, write_packet_getLast h, hTx⟩
  intro off v hv
  rcases write_packet_mem h (Ev.write off v) hv with h1 | h1 | ⟨j, h1⟩ | h1 | h1
  · cases h1
  · cases h1
    exact mask300_eq hRx
  · cases h1
  · cases h1
  · cases h1
    exact hTx

theorem C3_noninterference_witness :
    write_packet 0 (crToRx 0) (fun _ => 0) 1 [] 0 =
      some [Ev.read UARTCR 0, Ev.write UARTCR (crToRx 0), Ev.read UARTFR 0,
        Ev.read UARTCR (crToRx 0), Ev.write UARTCR (crToTx (crToRx 0))] ∧
    crToTx (crToRx 0) &&& compl32 0x300 = 0 &&& compl32 0x300 :=
  ⟨rfl,
    (@C3_noninterference 0 (fun _ => 0) 1 [] 0
      [Ev.read UARTCR 0, Ev.write UARTCR (crToRx 0), Ev.read UARTFR 0,
        Ev.read UARTCR (crToRx 0), Ev.write UARTCR (crToTx (crToRx 0))] rfl).2.2⟩

/-- C4: if the flag register reports FIFO-full on each of the first `N`
reads and not-full on read `N`, then (with enough fuel) `write_packet`
completes and its trace contains exactly `N + 1` flag-register reads
before the final control-register write. -/
theorem C4_poll_count (N V W : Nat) (flags : Nat → Nat) (fuel : Nat)
    (buf : List Nat) (len : Nat)
    (hfull : ∀ j, j < N → flags j &&& UARTFR_TXFF ≠ 0)
    (hclear : flags N &&& UARTFR_TXFF = 0)
    (hfuel : N + 1 ≤ fuel) :
    ∃ tr, write_packet V W flags fuel buf len = some tr ∧
      (tr.filter isFlagRead).length = N + 1 := by
  have hp : pollLoop flags 0 fuel =
      some ((List.range (N + 1)).map (fun j => Ev.read UARTFR (flags j))) := by
    have hz := pollLoop_exact N 0 fuel
      (by intro j hj; simpa using hfull j hj)
      (by simpa using hclear) hfuel
    simpa using hz
  refine ⟨Ev.read UARTCR V :: Ev.write UARTCR (crToRx V) ::
      ((List.range (N + 1)).map (fun j => Ev.read UARTFR (flags j)) ++
        [Ev.read UARTCR W, Ev.write UARTCR (crToTx W)]), ?_, ?_⟩
  · rw [write_packet, hp]
  · rw [filter_flagRead_trace]
    simp

theorem C4_poll_count_witness :
    (∃ tr, write_packet 0 0 (fun i => if i < 2 then UARTFR_TXFF else 0) 3 [] 0 =
        some tr ∧ (tr.filter isFlagRead).length = 2 + 1) :=
  C4_poll_count 2 0 0 (fun i => if i < 2 then UARTFR_TXFF else 0) 3 [] 0
    (by decide) (by decide) (by decide)

/-- C5: half-duplex discipline — every value the routine writes to any
register has at most one of bit 9 (receive-enable) and bit 8
(transmit-enable) set, whatever the initial register state. -/
theorem C5_half_duplex {V W : Nat} {flags : Nat → Nat} {fuel : Nat}
    {buf : List Nat} {len : Nat} {tr : List Ev}
    (h : write_packet V W flags fuel buf len = some tr) :
    ∀ off v, Ev.write off v ∈ tr → ¬(v.testBit 9 = true ∧ v.testBit 8 = true) := by
  intro off v hv hcon
  obtain ⟨h9, h8⟩ := hcon
  rcases write_packet_mem h (Ev.write off v) hv with h1 | h1 | ⟨j, h1⟩ | h1 | h1
  · cases h1
  · cases h1
    rw [testBit_crToRx] at h8
    simp at h8
  · cases h1
  · cases h1
  · cases h1
    rw [testBit_crToTx] at h9
    simp at h9

theorem C5_half_duplex_witness :
    write_packet 0 0 (fun _ => 0) 1 [] 0 =
      some [Ev.read UARTCR 0, Ev.write UARTCR (crToRx 0), Ev.read UARTFR 0,
        Ev.read UARTCR 0, Ev.write UARTCR (crToTx 0)] ∧
    ¬((crToRx 0).testBit 9 = true ∧ (crToRx 0).testBit 8 = true) :=
  ⟨rfl,
    (@C5_half_duplex 0 0 (fun _ => 0) 1 [] 0
      [Ev.read UARTCR 0, Ev.write UARTCR (crToRx 0), Ev.read UARTFR 0,
        Ev.read UARTCR 0, Ev.write UARTCR (crToTx 0)] rfl)
      UARTCR (crToRx 0) (by simp)⟩

/-- C9: a completed call performs exactly two register writes, both to
the control register at offset `0x30`; the flag register at offset
`0x18` is only read, and no other offset is accessed at all. -/
theorem C9_register_footprint {V W : Nat} {flags : Nat → Nat} {fuel : Nat}
    {buf : List Nat} {len : Nat} {tr : List Ev}
    (h : write_packet V W flags fuel buf len = some tr) :
    (tr.filter isWrite).length = 2 ∧
      (∀ off v, Ev.write off v ∈ tr → off = UARTCR) ∧
      ∀ e ∈ tr, evOff e = UARTCR ∨ evOff e = UARTFR := by
  obtain ⟨n, _, _, _, htr⟩ := write_packet_some h
  refine ⟨?_, ?_, ?_⟩
  · rw [htr]
    have hq : List.filter (isWrite ∘ fun j => Ev.read UARTFR (flags j))
        (List.range (n + 1)) = [] := by
      rw [List.filter_eq_nil_iff]
      intro a _
      simp [isWrite_read]
    simp [List.filter_cons, List.filter_append, List.filter_map, hq,
      isWrite_read, isWrite_write]
  · intro off v hv
    rcases write_packet_mem h (Ev.write off v) hv with h1 | h1 | ⟨j, h1⟩ | h1 | h1 <;>
      cases h1 <;> rfl
  · intro e he
    rcases write_packet_mem h e he with h1 | h1 | ⟨j, h1⟩ | h1 | h1 <;>
      subst h1 <;> simp [evOff]

theorem C9_register_footprint_witness :
    write_packet 0 0 (fun _ => 0) 1 [] 0 =
      some [Ev.read UARTCR 0, Ev.write UARTCR (crToRx 0), Ev.read UARTFR 0,
        Ev.read UARTCR 0, Ev.write UARTCR (crToTx 0)] ∧
    ([Ev.read UARTCR 0, Ev.write UARTCR (crToRx 0), Ev.read UARTFR 0,
        Ev.read UARTCR 0, Ev.write UARTCR (crToTx 0)].filter isWrite).length = 2 :=
  ⟨rfl,
    (@C9_register_footprint 0 0 (fun _ => 0) 1 [] 0
      [Ev.read UARTCR 0, Ev.write UARTCR (crToRx 0), Ev.read UARTFR 0,
        Ev.read UARTCR 0, Ev.write UARTCR (crToTx 0)] rfl).1⟩

/-! Positions of events in a completed trace -/

lemma isRxModeWrite_read (off v : Nat) : isRxModeWrite (Ev.read off v) = false := rfl

lemma isTxModeWrite_read (off v : Nat) : isTxModeWrite (Ev.read off v) = false := rfl

lemma isRxModeWrite_writeCR (v : Nat) :
    isRxModeWrite (Ev.write UARTCR v) = v.testBit 9 := by
  simp [isRxModeWrite]

lemma isTxModeWrite_writeCR (v : Nat) :
    isTxModeWrite (Ev.write UARTCR v) = v.testBit 8 := by
  simp [isTxModeWrite]

/-- Every position of a completed trace is classified: position `0` is
the first control-register read, position `1` the receive-mode write,
positions `2` through `n + 2` the flag-register reads, position `n + 3`
the second control-register read and position `n + 4` the transmit-mode
write. -/
lemma write_packet_index_class {V W : Nat} {flags : Nat → Nat} {fuel : Nat}
    {buf : List Nat} {len : Nat} {tr : List Ev}
    (h : write_packet V W flags fuel buf len = some tr) :
    ∃ n, tr.length = n + 5 ∧
      ∀ (k : Nat) (hk : k < tr.length),
        (k = 0 ∧ tr.get ⟨k, hk⟩ = Ev.read UARTCR V) ∨
        (k = 1 ∧ tr.get ⟨k, hk⟩ = Ev.write UARTCR (crToRx V)) ∨
        (2 ≤ k ∧ k ≤ n + 2 ∧ tr.get ⟨k, hk⟩ = Ev.read UARTFR (flags (k - 2))) ∨
        (k = n + 3 ∧ tr.get ⟨k, hk⟩ = Ev.read UARTCR W) ∨
        (k = n + 4 ∧ tr.get ⟨k, hk⟩ = Ev.write UARTCR (crToTx W)) := by
  obtain ⟨n, _, _, _, htr⟩ := write_packet_some h
  subst htr
  refine ⟨n, by simp only [List.length_cons, List.length_append,
    List.length_map, List.length_range, List.length_nil], ?_⟩
  intro k hk
  rcases k with _ | k
  · exact Or.inl ⟨rfl, by simp⟩
  rcases k with _ | k
  · exact Or.inr (Or.inl ⟨rfl, by simp⟩)
  have hk5 : k + 1 + 1 < n + 5 := by
    simp only [List.length_cons, List.length_append,
      List.length_map, List.length_range, List.length_nil] at hk
    omega
  rw [List.get_eq_getElem]
  simp only [List.getElem_cons_succ]
  rcases Nat.lt_or_ge k (n + 1) with hkn | hkn
  · refine Or.inr (Or.inr (Or.inl ⟨by omega, by omega, ?_⟩))
    rw [List.getElem_append_left (by simpa using hkn)]
    have e : k + 1 + 1 - 2 = k := by omega
    rw [e]
    simp
  · have hk2 : k = n + 1 ∨ k = n + 2 := by omega
    rcases hk2 with rfl | rfl
    · refine Or.inr (Or.inr (Or.inr (Or.inl ⟨by omega, ?_⟩)))
      rw [List.getElem_append_right (by simp)]
      simp
    · refine Or.inr (Or.inr (Or.inr (Or.inr ⟨by omega, ?_⟩)))
      rw [List.getElem_append_right (by simp)]
      simp [show n + 2 - (n + 1) = 1 from by omega]

/-- C6: in the sequence of register accesses of a completed call, the
receive-mode control-register write precedes every flag-register read,
and the transmit-mode control-register write follows every flag-register
read. -/
theorem C6_ordering {V W : Nat} {flags : Nat → Nat} {fuel : Nat}
    {buf : List Nat} {len : Nat} {tr : List Ev}
    (h : write_packet V W flags fuel buf len = some tr) :
    (∀ (i j : Nat) (hi : i < tr.length) (hj : j < tr.length),
        isRxModeWrite (tr.get ⟨i, hi⟩) = true →
        isFlagRead (tr.get ⟨j, hj⟩) = true → i < j) ∧
      ∀ (i j : Nat) (hi : i < tr.length) (hj : j < tr.length),
        isTxModeWrite (tr.get ⟨i, hi⟩) = true →
        isFlagRead (tr.get ⟨j, hj⟩) = true → j < i := by
  obtain ⟨n, hlen, hclass⟩ := write_packet_index_class h
  have hfr : ∀ (j : Nat) (hj : j < tr.length),
      isFlagRead (tr.get ⟨j, hj⟩) = true → 2 ≤ j ∧ j ≤ n + 2 := by
    intro j hj hev
    rcases hclass j hj with ⟨e, hg⟩ | ⟨e, hg⟩ | ⟨e1, e2, hg⟩ | ⟨e, hg⟩ | ⟨e, hg⟩
    · rw [hg, isFlagRead_read_CR] at hev; cases hev
    · rw [hg, isFlagRead_write] at hev; cases hev
    · exact ⟨e1, e2⟩
    · rw [hg, isFlagRead_read_CR] at hev; cases hev
    · rw [hg, isFlagRead_write] at hev; cases hev
  have hrx : ∀ (i : Nat) (hi : i < tr.length),
      isRxModeWrite (tr.get ⟨i, hi⟩) = true → i = 1 := by
    intro i hi hev
    rcases hclass i hi with ⟨e, hg⟩ | ⟨e, hg⟩ | ⟨e1, e2, hg⟩ | ⟨e, hg⟩ | ⟨e, hg⟩
    · rw [hg, isRxModeWrite_read] at hev; cases hev
    · exact e
    · rw [hg, isRxModeWrite_read] at hev; cases hev
    · rw [hg, isRxModeWrite_read] at hev; cases hev
    · rw [hg, isRxModeWrite_writeCR, testBit_crToTx] at hev
      simp at hev
  have htx : ∀ (i : Nat) (hi : i < tr.length),
      isTxModeWrite (tr.get ⟨i, hi⟩) = true → i = n + 4 := by
    intro i hi hev
    rcases hclass i hi with ⟨e, hg⟩ | ⟨e, hg⟩ | ⟨e1, e2, hg⟩ | ⟨e, hg⟩ | ⟨e, hg⟩
    · rw [hg, isTxModeWrite_read] at hev; cases hev
    · rw [hg, isTxModeWrite_writeCR, testBit_crToRx] at hev
      simp at hev
    · rw [hg, isTxModeWrite_read] at hev; cases hev
    · rw [hg, isTxModeWrite_read] at hev; cases hev
    · exact e
  constructor
  · intro i j hi hj hi1 hj1
    have e1 := hrx i hi hi1
    have e2 := hfr j hj hj1
    omega
  · intro i j hi hj hi1 hj1
    have e1 := htx i hi hi1
    have e2 := hfr j hj hj1
    omega

theorem C6_ordering_witness :
    write_packet 0 0 (fun _ => 0) 1 [] 0 =
      some [Ev.read UARTCR 0, Ev.write UARTCR (crToRx 0), Ev.read UARTFR 0,
        Ev.read UARTCR 0, Ev.write UARTCR (crToTx 0)] ∧
    (1 : Nat) < 2 :=
  ⟨rfl,
    (@C6_ordering 0 0 (fun _ => 0) 1 [] 0
      [Ev.read UARTCR 0, Ev.write UARTCR (crToRx 0), Ev.read UARTFR 0,
        Ev.read UARTCR 0, Ev.write UARTCR (crToTx 0)] rfl).1
      1 2 (by decide) (by decide) (by decide) (by decide)⟩
